import Mathlib

/-!
# Dog: the NNUE evaluator (src/app/src/nnue.cpp) and its driver (src/app/src/eval.cpp)

Shallow embedding of `Network`, `Eval` and `nnue_evaluate`.

* A C++ `std::int16_t` is an integer in `[-32768, 32767]` (`I16`); storing an `int` into it
  reduces it modulo `2^16` (`wrap16`).
* A C++ `int` is an integer on which every arithmetic result is reduced modulo `2^32`
  (`wrap32`).  Signed overflow is undefined in C++; the theorems that speak about values
  state the absence of overflow explicitly.
* `nnue.h` and `weights.cpp` are not among the sources.  `HIDDEN_SIZE` is the value fixed by
  `static_assert(sizeof(Network) == 197440)`; the quantisation constants `QA`, `QB`, `SCALE`
  are parameters (`Quant`); the weight blob is a parameter (`Network`).
* An index into `feature_weights` outside `[0, 2*6*64)` is an out-of-bounds read: the
  operations return `none` there.
-/

namespace Dog

/-! ## Machine integers -/

/-- Reduction of an integer to the signed 16-bit range (a store into `std::int16_t`). -/
def wrap16 (x : Int) : Int := (x + 32768) % 65536 - 32768

/-- Reduction of an integer to the signed 32-bit range (arithmetic on `int`). -/
def wrap32 (x : Int) : Int := (x + 2147483648) % 4294967296 - 2147483648

/-- The values an `int` can hold. -/
def inInt32 (x : Int) : Prop := -2147483648 ≤ x ∧ x ≤ 2147483647

/-- The values a `std::int16_t` can hold. -/
def inInt16 (x : Int) : Prop := -32768 ≤ x ∧ x ≤ 32767

instance (x : Int) : Decidable (inInt32 x) := by unfold inInt32; infer_instance

instance (x : Int) : Decidable (inInt16 x) := by unfold inInt16; infer_instance

/-- A `std::int16_t` value. -/
abbrev I16 : Type := { x : Int // -32768 ≤ x ∧ x ≤ 32767 }

/-- Conversion of an `int` to `std::int16_t`. -/
def I16.ofInt (x : Int) : I16 := ⟨wrap16 x, by unfold wrap16; omega⟩

/-- `std::clamp(v, lo, hi)`: `(v < lo) ? lo : (hi < v) ? hi : v`. -/
def clamp (v lo hi : Int) : Int := if v < lo then lo else if hi < v then hi else v

/-! ## Data model (nnue.cpp lines 8-12; `Accumulator`, `Eval` of nnue.h) -/

/-- Length of an accumulator.  With `Accumulator` an array of `HIDDEN_SIZE` 16-bit values
aligned to 64 bytes, `sizeof(Network) == 197440` holds exactly for `HIDDEN_SIZE = 128`:
`(768 + 1 + 2) * 256 = 197376`, plus the 2-byte `output_bias` padded to 64. -/
def HIDDEN_SIZE : Nat := 128

/-- Number of rows of `feature_weights`: `2 * 6 * 64`. -/
def N_FEATURES : Nat := 2 * 6 * 64

/-- `struct Accumulator { std::int16_t vals[HIDDEN_SIZE]; }`. -/
@[ext]
structure Accumulator where
  vals : Fin HIDDEN_SIZE → I16

/-- The quantisation constants of nnue.h.  `QA` is a `std::int16_t` (it is the third argument
of `std::clamp` on 16-bit values); `QB` and `SCALE` are used as `int`. -/
structure Quant where
  QA : I16
  QB : Int
  SCALE : Int

/-- `struct Network`: the weight blob. -/
structure Network where
  feature_weights : Fin N_FEATURES → Accumulator
  feature_bias : Accumulator
  output_weights : Fin 2 → Accumulator
  output_bias : I16

/-- `class Eval`: the white and the black accumulator. -/
@[ext]
structure Eval where
  white : Accumulator
  black : Accumulator

/-! ## Network::evaluate (nnue.cpp lines 14-39) -/

/-- Body of one iteration of either loop of `Network::evaluate`:
`input = clamp(a, 0, QA); weight = (int16) (input * w); output += int{input} * int{weight}`. -/
def Network.evaluate_step (q : Quant) (output a w : Int) : Int :=
  let input := clamp a 0 q.QA.val
  let weight := wrap16 (input * w)
  wrap32 (output + wrap32 (input * weight))

/-- One loop `for (int i = 0; i < HIDDEN_SIZE; i++)` of `Network::evaluate`, over the
accumulator `acc` and the output-weight vector `ow`, starting from `output`. -/
def Network.evaluate_loop (q : Quant) (acc ow : Accumulator) (output : Int) : Int :=
  (List.finRange HIDDEN_SIZE).foldl
    (fun output i => Network.evaluate_step q output (acc.vals i).val (ow.vals i).val) output

/-- `int Network::evaluate(const Accumulator& us, const Accumulator& them) const`. -/
def Network.evaluate (q : Quant) (net : Network) (us them : Accumulator) : Int :=
  let output : Int := 0
  let output := Network.evaluate_loop q us (net.output_weights 0) output
  let output := Network.evaluate_loop q them (net.output_weights 1) output
  let output := wrap32 (Int.tdiv output q.QA.val)
  let output := wrap32 (output + net.output_bias.val)
  let output := wrap32 (output * q.SCALE)
  let output := wrap32 (Int.tdiv output (wrap32 (q.QA.val * q.QB)))
  output

/-! ## Network::add_feature / remove_feature (nnue.cpp lines 41-51) -/

/-- `void Network::add_feature(Accumulator& acc, const int feature_idx) const`:
`acc.vals[i] += feature_weights[feature_idx].vals[i]` for every `i`; `none` when
`feature_idx` is outside the table. -/
def Network.add_feature (net : Network) (acc : Accumulator) (feature_idx : Nat) :
    Option Accumulator :=
  if h : feature_idx < N_FEATURES then
    some ⟨fun i => I16.ofInt ((acc.vals i).val + ((net.feature_weights ⟨feature_idx, h⟩).vals i).val)⟩
  else none

/-- `void Network::remove_feature(Accumulator& acc, const int feature_idx) const`:
`acc.vals[i] -= feature_weights[feature_idx].vals[i]` for every `i`; `none` when
`feature_idx` is outside the table. -/
def Network.remove_feature (net : Network) (acc : Accumulator) (feature_idx : Nat) :
    Option Accumulator :=
  if h : feature_idx < N_FEATURES then
    some ⟨fun i => I16.ofInt ((acc.vals i).val - ((net.feature_weights ⟨feature_idx, h⟩).vals i).val)⟩
  else none

/-! ## Eval (nnue.cpp lines 56-88) -/

/-- `Eval::Eval() : white{NNUE->feature_bias}, black{NNUE->feature_bias}`. -/
def Eval.new (net : Network) : Eval := ⟨net.feature_bias, net.feature_bias⟩

/-- `int Eval::evaluate(bool white_to_move) const`. -/
def Eval.evaluate (q : Quant) (net : Network) (e : Eval) (white_to_move : Bool) : Int :=
  if white_to_move then net.evaluate q e.white e.black
  else net.evaluate q e.black e.white

/-- `void Eval::add_piece(const int piece, const int square, const bool is_white)`.
The piece type and the square are non-negative on every well-formed call. -/
def Eval.add_piece (net : Network) (e : Eval) (piece square : Nat) (is_white : Bool) :
    Option Eval :=
  if is_white then
    (net.add_feature e.white (64 * piece + square)).bind fun white =>
    (net.add_feature e.black (64 * (6 + piece) + (square ^^^ 56))).bind fun black =>
    some ⟨white, black⟩
  else
    (net.add_feature e.black (64 * piece + (square ^^^ 56))).bind fun black =>
    (net.add_feature e.white (64 * (6 + piece) + square)).bind fun white =>
    some ⟨white, black⟩

/-- `void Eval::remove_piece(const int piece, const int square, const bool is_white)`. -/
def Eval.remove_piece (net : Network) (e : Eval) (piece square : Nat) (is_white : Bool) :
    Option Eval :=
  if is_white then
    (net.remove_feature e.white (64 * piece + square)).bind fun white =>
    (net.remove_feature e.black (64 * (6 + piece) + (square ^^^ 56))).bind fun black =>
    some ⟨white, black⟩
  else
    (net.remove_feature e.black (64 * piece + (square ^^^ 56))).bind fun black =>
    (net.remove_feature e.white (64 * (6 + piece) + square)).bind fun white =>
    some ⟨white, black⟩

/-! ## Sequences of calls -/

/-- The arguments of one `add_piece` / `remove_piece` call. -/
structure Piece where
  piece : Nat
  square : Nat
  is_white : Bool
deriving DecidableEq

/-- A well-formed call: piece type in `[0, 6)`, square in `[0, 64)`. -/
def Piece.wf (p : Piece) : Prop := p.piece < 6 ∧ p.square < 64

instance (p : Piece) : Decidable p.wf := by unfold Piece.wf; infer_instance

/-- The colour-swapped, rank-mirrored counterpart of a piece: `(t, s XOR 56, opposite colour)`. -/
def Piece.mirror (p : Piece) : Piece := ⟨p.piece, p.square ^^^ 56, !p.is_white⟩

/-- One call on an evaluation context. -/
inductive Op where
  | add (p : Piece)
  | remove (p : Piece)
deriving DecidableEq

/-- The piece a call is about. -/
def Op.piece : Op → Piece
  | Op.add p => p
  | Op.remove p => p

/-- Performs one call. -/
def Eval.apply (net : Network) (e : Eval) : Op → Option Eval
  | Op.add p => e.add_piece net p.piece p.square p.is_white
  | Op.remove p => e.remove_piece net p.piece p.square p.is_white

/-- Performs a sequence of calls, first to last. -/
def Eval.run (net : Network) : Eval → List Op → Option Eval
  | e, [] => some e
  | e, op :: ops => (e.apply net op).bind fun e1 => Eval.run net e1 ops

/-- Calls `add_piece` for every piece of a list, first to last. -/
def Eval.add_all (net : Network) (e : Eval) (ps : List Piece) : Option Eval :=
  Eval.run net e (ps.map Op.add)

/-- Net count of a piece in a sequence of calls: adds minus removes. -/
def Op.net_count (ops : List Op) (p : Piece) : Int :=
  (ops.count (Op.add p) : Int) - (ops.count (Op.remove p) : Int)

/-! ## The formulas of the specification -/

/-- The sum `S` of the specification: for each perspective the sum over `i` of
`clamp(acc[i], 0, QA)^2 * outputWeight[i]`, the two perspectives added. -/
def spec_sum (q : Quant) (net : Network) (own opp : Accumulator) : Int :=
  ((List.finRange HIDDEN_SIZE).map fun i =>
      (clamp (own.vals i).val 0 q.QA.val) ^ 2 * ((net.output_weights 0).vals i).val).sum +
  ((List.finRange HIDDEN_SIZE).map fun i =>
      (clamp (opp.vals i).val 0 q.QA.val) ^ 2 * ((net.output_weights 1).vals i).val).sum

/-- The score of the specification: `trunc((trunc(S / QA) + output_bias) * SCALE / (QA * QB))`. -/
def spec_score (q : Quant) (net : Network) (own opp : Accumulator) : Int :=
  Int.tdiv ((Int.tdiv (spec_sum q net own opp) q.QA.val + net.output_bias.val) * q.SCALE)
    (q.QA.val * q.QB)

/-- Feature index of the specification for the white accumulator. -/
def spec_white_index (t s : Nat) (is_white : Bool) : Nat :=
  if is_white then t * 64 + s else (6 + t) * 64 + s

/-- Feature index of the specification for the black accumulator. -/
def spec_black_index (t s : Nat) (is_white : Bool) : Nat :=
  if is_white then (6 + t) * 64 + (s ^^^ 56) else t * 64 + (s ^^^ 56)

/-- The reduction of the specification: `x` reduced modulo `2^16` to a signed value, that is
the representative of `x` modulo `65536` that lies in `[-32768, 32767]`. -/
def reduce16 (x : Int) : Int :=
  let r := x % 65536
  if r < 32768 then r else r - 65536

/-- The 16-bit products `clamp(acc[i], 0, QA) * ow[i]` of one loop all fit a `std::int16_t`. -/
def products_fit (q : Quant) (acc ow : Accumulator) : Prop :=
  ∀ i : Fin HIDDEN_SIZE, inInt16 (clamp (acc.vals i).val 0 q.QA.val * (ow.vals i).val)

/-- The addends of `output` in `Network::evaluate`, in program order: the `HIDDEN_SIZE` of the
first loop, then the `HIDDEN_SIZE` of the second. -/
def Network.evaluate_terms (q : Quant) (net : Network) (us them : Accumulator) : List Int :=
  ((List.finRange HIDDEN_SIZE).map fun i =>
      clamp (us.vals i).val 0 q.QA.val *
        wrap16 (clamp (us.vals i).val 0 q.QA.val * ((net.output_weights 0).vals i).val)) ++
  ((List.finRange HIDDEN_SIZE).map fun i =>
      clamp (them.vals i).val 0 q.QA.val *
        wrap16 (clamp (them.vals i).val 0 q.QA.val * ((net.output_weights 1).vals i).val))

/-- The value of `output` after adding the given addends one by one in `int` arithmetic. -/
def running_output (ts : List Int) : Int :=
  ts.foldl (fun output t => wrap32 (output + wrap32 t)) 0

/-! ## nnue_evaluate (eval.cpp lines 5-25) -/

/-- Number of trailing zero bits of `x`, looking at the lowest `fuel` bits. -/
def ctz : Nat → Nat → Nat
  | 0, _ => 0
  | fuel + 1, x => if x % 2 = 1 then 0 else 1 + ctz fuel (x / 2)

/-- Modelled from the spec: libchess::Bitboard, a 64-bit occupancy set (bit `s` set when square
`s` is occupied). -/
structure Bitboard where
  value : Nat
  lt : value < 2 ^ 64

/-- Modelled from the spec: `Bitboard::forward_bitscan`, the lowest set square. -/
def Bitboard.forward_bitscan (bb : Bitboard) : Nat := ctz 64 bb.value

/-- Modelled from the spec: `Bitboard::forward_popbit`, clearing the lowest set square
(`value &= value - 1`). -/
def Bitboard.forward_popbit (bb : Bitboard) : Bitboard :=
  ⟨bb.value &&& (bb.value - 1), Nat.lt_of_le_of_lt Nat.and_le_left bb.lt⟩

/-- Modelled from the spec: libchess::Position, one occupancy bitboard per piece type and colour
(`true` is white) and the side to move. -/
structure Position where
  piece_type_bb : Nat → Bool → Bitboard
  white_to_move : Bool

/-- Modelled from the spec: `libchess::constants::PIECE_TYPES`, the six piece types `0..5`. -/
def PIECE_TYPES : List Nat := [0, 1, 2, 3, 4, 5]

/-- The loop `while (bb) { sq = bb.forward_bitscan(); bb.forward_popbit(); e.add_piece(type, sq,
is_white); }`.  `none` when the fuel runs out before the bitboard is empty. -/
def scan_loop (net : Network) (type : Nat) (is_white : Bool) : Nat → Bitboard → Eval → Option Eval
  | 0, bb, e => if bb.value = 0 then some e else none
  | fuel + 1, bb, e =>
    if bb.value = 0 then some e
    else
      let sq := bb.forward_bitscan
      let bb := bb.forward_popbit
      (e.add_piece net type sq is_white).bind fun e1 => scan_loop net type is_white fuel bb e1

/-- The loop `for (libchess::PieceType type : PIECE_TYPES)` of `nnue_evaluate`: the white
bitboard of the type, then the black one. -/
def type_loop (net : Network) (pos : Position) : List Nat → Eval → Option Eval
  | [], e => some e
  | type :: rest, e =>
    (scan_loop net type true 64 (pos.piece_type_bb type true) e).bind fun e1 =>
    (scan_loop net type false 64 (pos.piece_type_bb type false) e1).bind fun e2 =>
    type_loop net pos rest e2

/-- `int nnue_evaluate(const libchess::Position & pos)`. -/
def nnue_evaluate (q : Quant) (net : Network) (pos : Position) : Option Int :=
  (type_loop net pos PIECE_TYPES (Eval.new net)).map fun e => e.evaluate q net pos.white_to_move

/-- The occupied squares of a bitboard, ascending. -/
def Bitboard.squares (bb : Bitboard) : List Nat :=
  (List.range 64).filter fun s => bb.value.testBit s

/-- The pieces on the board: for every piece type and colour, the occupied squares of its
bitboard. -/
def Position.pieces (pos : Position) : List Piece :=
  PIECE_TYPES.flatMap fun t =>
    ((pos.piece_type_bb t true).squares.map fun s => Piece.mk t s true) ++
    ((pos.piece_type_bb t false).squares.map fun s => Piece.mk t s false)

/-! ## Auxiliary definitions for the proofs -/

/-- Elementwise addition of integers to an accumulator, each element stored back as
`std::int16_t`. -/
def Accumulator.shift (acc : Accumulator) (d : Fin HIDDEN_SIZE → Int) : Accumulator :=
  ⟨fun i => I16.ofInt ((acc.vals i).val + d i)⟩

/-- The integer values of row `idx` of `feature_weights` (zero outside the table). -/
def Network.row (net : Network) (idx : Nat) (i : Fin HIDDEN_SIZE) : Int :=
  if h : idx < N_FEATURES then ((net.feature_weights ⟨idx, h⟩).vals i).val else 0

/-- The sign of a call: `+1` for `add_piece`, `-1` for `remove_piece`. -/
def Op.sign : Op → Int
  | Op.add _ => 1
  | Op.remove _ => -1

/-- The exact (unreduced) sum of the signed rows a sequence of calls applies to the white
accumulator. -/
def delta_white (net : Network) (ops : List Op) (i : Fin HIDDEN_SIZE) : Int :=
  (ops.map fun op =>
    op.sign * net.row (spec_white_index op.piece.piece op.piece.square op.piece.is_white) i).sum

/-- The exact (unreduced) sum of the signed rows a sequence of calls applies to the black
accumulator. -/
def delta_black (net : Network) (ops : List Op) (i : Fin HIDDEN_SIZE) : Int :=
  (ops.map fun op =>
    op.sign * net.row (spec_black_index op.piece.piece op.piece.square op.piece.is_white) i).sum

/-- The context with the two accumulators exchanged. -/
def Eval.swap (e : Eval) : Eval := ⟨e.black, e.white⟩

/-- The addends of the sum `S` of the specification, in program order. -/
def spec_terms (q : Quant) (net : Network) (own opp : Accumulator) : List Int :=
  ((List.finRange HIDDEN_SIZE).map fun i =>
      (clamp (own.vals i).val 0 q.QA.val) ^ 2 * ((net.output_weights 0).vals i).val) ++
  ((List.finRange HIDDEN_SIZE).map fun i =>
      (clamp (opp.vals i).val 0 q.QA.val) ^ 2 * ((net.output_weights 1).vals i).val)

/-- The `int` arithmetic of `Network::evaluate` is defined on the exact values: both divisors
are non-zero and every intermediate value (each running sum, each quotient, the sum with the
bias, the product with `SCALE`, the divisor `QA * QB`) is representable as an `int`. -/
def evaluate_defined (q : Quant) (net : Network) (own opp : Accumulator) : Prop :=
  q.QA.val ≠ 0 ∧ q.QA.val * q.QB ≠ 0 ∧
  (∀ k, k ≤ 2 * HIDDEN_SIZE → inInt32 (((spec_terms q net own opp).take k).sum)) ∧
  inInt32 (Int.tdiv (spec_sum q net own opp) q.QA.val) ∧
  inInt32 (Int.tdiv (spec_sum q net own opp) q.QA.val + net.output_bias.val) ∧
  inInt32 ((Int.tdiv (spec_sum q net own opp) q.QA.val + net.output_bias.val) * q.SCALE) ∧
  inInt32 (q.QA.val * q.QB) ∧
  inInt32 (spec_score q net own opp)

/-! ## Sample inputs -/

/-- The accumulator with every element equal to `v`. -/
def const_acc (v : I16) : Accumulator := ⟨fun _ => v⟩

/-- Sample quantisation constants: `QA = 255`, `QB = 64`, `SCALE = 400`. -/
def sample_quant : Quant := ⟨⟨255, by decide⟩, 64, 400⟩

/-- A sample weight blob: every feature weight is `1`, every bias element is `32767`, the output
weights are zero and the output bias is `100`. -/
def sample_net : Network :=
  ⟨fun _ => const_acc ⟨1, by decide⟩, const_acc ⟨32767, by decide⟩,
    fun _ => const_acc ⟨0, by decide⟩, ⟨100, by decide⟩⟩

/-- A sample weight blob with large output weights: every output weight is `200`, everything
else is zero. -/
def wide_net : Network :=
  ⟨fun _ => const_acc ⟨0, by decide⟩, const_acc ⟨0, by decide⟩,
    fun _ => const_acc ⟨200, by decide⟩, ⟨0, by decide⟩⟩

/-- A sample weight blob with non-zero output weights: every feature weight is `1`, every bias
element is `3`, every output weight is `1` and the output bias is `100`. -/
def unit_net : Network :=
  ⟨fun _ => const_acc ⟨1, by decide⟩, const_acc ⟨3, by decide⟩,
    fun _ => const_acc ⟨1, by decide⟩, ⟨100, by decide⟩⟩

/-- A white pawn on e2. -/
def sample_pawn : Piece := ⟨0, 12, true⟩

/-- A black king on e8. -/
def sample_king : Piece := ⟨5, 60, false⟩

/-- A sample context: every white element is `255`, every black element is `0`. -/
def wide_eval : Eval := ⟨const_acc ⟨255, by decide⟩, const_acc ⟨0, by decide⟩⟩

/-! ## Machine arithmetic and feature indices -/

theorem wrap16_eq_self {x : Int} (h : -32768 ≤ x ∧ x ≤ 32767) : wrap16 x = x := by
  unfold wrap16; omega

theorem wrap32_eq_self {x : Int} (h : inInt32 x) : wrap32 x = x := by
  unfold inInt32 at h; unfold wrap32; omega

theorem xor56_lt {s : Nat} (hs : s < 64) : s ^^^ 56 < 64 := by
  have h1 : s < 2 ^ 6 := by omega
  have h2 : 56 < 2 ^ 6 := by decide
  have := Nat.xor_lt_two_pow h1 h2
  omega

theorem xor56_xor56 (s : Nat) : (s ^^^ 56) ^^^ 56 = s := by
  rw [Nat.xor_assoc, Nat.xor_self, Nat.xor_zero]

theorem add_feature_some (net : Network) (acc : Accumulator) {idx : Nat} (h : idx < N_FEATURES) :
    net.add_feature acc idx = some ⟨fun i =>
      I16.ofInt ((acc.vals i).val + ((net.feature_weights ⟨idx, h⟩).vals i).val)⟩ := by
  unfold Network.add_feature; rw [dif_pos h]

theorem remove_feature_some (net : Network) (acc : Accumulator) {idx : Nat}
    (h : idx < N_FEATURES) :
    net.remove_feature acc idx = some ⟨fun i =>
      I16.ofInt ((acc.vals i).val - ((net.feature_weights ⟨idx, h⟩).vals i).val)⟩ := by
  unfold Network.remove_feature; rw [dif_pos h]

theorem index_bounds {t s : Nat} (ht : t < 6) (hs : s < 64) :
    64 * t + s < N_FEATURES ∧ 64 * t + (s ^^^ 56) < N_FEATURES ∧
    64 * (6 + t) + s < N_FEATURES ∧ 64 * (6 + t) + (s ^^^ 56) < N_FEATURES := by
  have hx := xor56_lt hs
  unfold N_FEATURES
  omega


/-! ## Accumulator updates as shifts by exact integer sums -/

theorem shift_shift (acc : Accumulator) (d1 d2 : Fin HIDDEN_SIZE → Int) :
    (acc.shift d1).shift d2 = acc.shift (fun i => d1 i + d2 i) := by
  apply Accumulator.ext
  funext i
  apply Subtype.ext
  simp only [Accumulator.shift, I16.ofInt]
  unfold wrap16; omega

theorem shift_zero (acc : Accumulator) : acc.shift (fun _ => 0) = acc := by
  apply Accumulator.ext
  funext i
  apply Subtype.ext
  have h := (acc.vals i).property
  simp only [Accumulator.shift, I16.ofInt]
  unfold wrap16; omega

theorem shift_congr (acc : Accumulator) {d1 d2 : Fin HIDDEN_SIZE → Int}
    (h : ∀ i, d1 i = d2 i) : acc.shift d1 = acc.shift d2 := by
  have : d1 = d2 := funext h
  rw [this]

theorem add_feature_eq_shift (net : Network) (acc : Accumulator) {idx : Nat}
    (h : idx < N_FEATURES) :
    net.add_feature acc idx = some (acc.shift (net.row idx)) := by
  rw [add_feature_some net acc h]
  simp only [Accumulator.shift, Network.row, dif_pos h]

theorem remove_feature_eq_shift (net : Network) (acc : Accumulator) {idx : Nat}
    (h : idx < N_FEATURES) :
    net.remove_feature acc idx = some (acc.shift (fun i => -net.row idx i)) := by
  rw [remove_feature_some net acc h]
  simp only [Accumulator.shift, Network.row, dif_pos h, Int.sub_eq_add_neg]

theorem spec_index_lt {t s : Nat} (c : Bool) (ht : t < 6) (hs : s < 64) :
    spec_white_index t s c < N_FEATURES ∧ spec_black_index t s c < N_FEATURES := by
  have hx := xor56_lt hs
  unfold spec_white_index spec_black_index N_FEATURES
  cases c <;> simp <;> omega

theorem add_piece_eq_shift (net : Network) (e : Eval) {t s : Nat} (c : Bool)
    (ht : t < 6) (hs : s < 64) :
    e.add_piece net t s c =
      some ⟨e.white.shift (net.row (spec_white_index t s c)),
            e.black.shift (net.row (spec_black_index t s c))⟩ := by
  obtain ⟨h1, h2, h3, h4⟩ := index_bounds ht hs
  have e1 : t * 64 + s = 64 * t + s := by omega
  have e2 : t * 64 + (s ^^^ 56) = 64 * t + (s ^^^ 56) := by omega
  have e3 : (6 + t) * 64 + s = 64 * (6 + t) + s := by omega
  have e4 : (6 + t) * 64 + (s ^^^ 56) = 64 * (6 + t) + (s ^^^ 56) := by omega
  unfold Eval.add_piece spec_white_index spec_black_index
  rw [e1, e2, e3, e4]
  cases c
  · simp only [Bool.false_eq_true, if_false, add_feature_eq_shift net _ h2,
      add_feature_eq_shift net _ h3, Option.some_bind]
  · simp only [if_true, add_feature_eq_shift net _ h1,
      add_feature_eq_shift net _ h4, Option.some_bind]

theorem remove_piece_eq_shift (net : Network) (e : Eval) {t s : Nat} (c : Bool)
    (ht : t < 6) (hs : s < 64) :
    e.remove_piece net t s c =
      some ⟨e.white.shift (fun i => -net.row (spec_white_index t s c) i),
            e.black.shift (fun i => -net.row (spec_black_index t s c) i)⟩ := by
  obtain ⟨h1, h2, h3, h4⟩ := index_bounds ht hs
  have e1 : t * 64 + s = 64 * t + s := by omega
  have e2 : t * 64 + (s ^^^ 56) = 64 * t + (s ^^^ 56) := by omega
  have e3 : (6 + t) * 64 + s = 64 * (6 + t) + s := by omega
  have e4 : (6 + t) * 64 + (s ^^^ 56) = 64 * (6 + t) + (s ^^^ 56) := by omega
  unfold Eval.remove_piece spec_white_index spec_black_index
  rw [e1, e2, e3, e4]
  cases c
  · simp only [Bool.false_eq_true, if_false, remove_feature_eq_shift net _ h2,
      remove_feature_eq_shift net _ h3, Option.some_bind]
  · simp only [if_true, remove_feature_eq_shift net _ h1,
      remove_feature_eq_shift net _ h4, Option.some_bind]

theorem apply_eq_shift (net : Network) (e : Eval) (op : Op) (h : op.piece.wf) :
    e.apply net op =
      some ⟨e.white.shift (delta_white net [op]), e.black.shift (delta_black net [op])⟩ := by
  cases op with
  | add p =>
    have hp : p.wf := h
    simp only [Eval.apply, add_piece_eq_shift net e p.is_white hp.1 hp.2]
    congr 2
    · apply shift_congr; intro i; simp [delta_white, Op.sign, Op.piece]
    · apply shift_congr; intro i; simp [delta_black, Op.sign, Op.piece]
  | remove p =>
    have hp : p.wf := h
    simp only [Eval.apply, remove_piece_eq_shift net e p.is_white hp.1 hp.2]
    congr 2
    · apply shift_congr; intro i; simp [delta_white, Op.sign, Op.piece]
    · apply shift_congr; intro i; simp [delta_black, Op.sign, Op.piece]

theorem run_eq_shift (net : Network) (ops : List Op) :
    ∀ e : Eval, (∀ op ∈ ops, op.piece.wf) →
      Eval.run net e ops =
        some ⟨e.white.shift (delta_white net ops), e.black.shift (delta_black net ops)⟩ := by
  induction ops with
  | nil =>
    intro e _
    simp only [Eval.run]
    congr 1
    apply Eval.ext
    · exact (shift_zero e.white).symm
    · exact (shift_zero e.black).symm
  | cons op ops ih =>
    intro e h
    have hop : op.piece.wf := h op (List.mem_cons_self _ _)
    have hrest : ∀ o ∈ ops, o.piece.wf := fun o ho => h o (List.mem_cons_of_mem _ ho)
    simp only [Eval.run, apply_eq_shift net e op hop, Option.some_bind, ih _ hrest, shift_shift]
    congr 2
    · apply shift_congr; intro i; simp [delta_white]
    · apply shift_congr; intro i; simp [delta_black]

/-! ## Net counts and order independence -/

theorem net_count_nil (p : Piece) : Op.net_count [] p = 0 := by
  simp [Op.net_count]

theorem net_count_cons (op : Op) (ops : List Op) (p : Piece) :
    Op.net_count (op :: ops) p = Op.net_count ops p + (if p = op.piece then op.sign else 0) := by
  cases op with
  | add q =>
    by_cases h : p = q
    · subst h; simp [Op.net_count, Op.piece, Op.sign, List.count_cons]; ring
    · have h' : ¬ q = p := fun hh => h hh.symm
      simp [Op.net_count, Op.piece, Op.sign, List.count_cons, h, h']
  | remove q =>
    by_cases h : p = q
    · subst h; simp [Op.net_count, Op.piece, Op.sign, List.count_cons]; ring
    · have h' : ¬ q = p := fun hh => h hh.symm
      simp [Op.net_count, Op.piece, Op.sign, List.count_cons, h, h']

theorem signed_sum_eq (f : Piece → Int) (ops : List Op) (S : Finset Piece)
    (hS : ∀ op ∈ ops, op.piece ∈ S) :
    (ops.map fun op => op.sign * f op.piece).sum = ∑ p in S, Op.net_count ops p * f p := by
  induction ops with
  | nil => simp [net_count_nil]
  | cons op ops ih =>
    have hop : op.piece ∈ S := hS op (List.mem_cons_self _ _)
    have hrest : ∀ o ∈ ops, o.piece ∈ S := fun o ho => hS o (List.mem_cons_of_mem _ ho)
    simp only [List.map_cons, List.sum_cons, ih hrest, net_count_cons, add_mul,
      Finset.sum_add_distrib, ite_mul, zero_mul, Finset.sum_ite_eq', hop, if_true]
    ring

theorem signed_sum_congr (f : Piece → Int) (ops1 ops2 : List Op)
    (h : ∀ p, Op.net_count ops1 p = Op.net_count ops2 p) :
    (ops1.map fun op => op.sign * f op.piece).sum =
      (ops2.map fun op => op.sign * f op.piece).sum := by
  have h1 := signed_sum_eq f ops1 ((ops1.map Op.piece).toFinset ∪ (ops2.map Op.piece).toFinset)
    (fun op hop => Finset.mem_union_left _ (List.mem_toFinset.2 (List.mem_map_of_mem _ hop)))
  have h2 := signed_sum_eq f ops2 ((ops1.map Op.piece).toFinset ∪ (ops2.map Op.piece).toFinset)
    (fun op hop => Finset.mem_union_right _ (List.mem_toFinset.2 (List.mem_map_of_mem _ hop)))
  rw [h1, h2]
  exact Finset.sum_congr rfl (fun p _ => by rw [h p])

theorem run_append (net : Network) (ops1 ops2 : List Op) :
    ∀ e : Eval, Eval.run net e (ops1 ++ ops2) =
      (Eval.run net e ops1).bind fun e1 => Eval.run net e1 ops2 := by
  induction ops1 with
  | nil => intro e; simp [Eval.run]
  | cons op ops ih =>
    intro e
    simp only [List.cons_append, Eval.run]
    cases h : e.apply net op with
    | none => simp
    | some e1 => simp [ih]

/-- C9: for every piece type `t < 6`, square `s < 64` and either colour, the four feature-row
indices that `add_piece` and `remove_piece` can compute (`64*t + s`, `64*t + (s XOR 56)`,
`64*(6+t) + s`, `64*(6+t) + (s XOR 56)`) are below the `2*6*64 = 768` rows of
`feature_weights`, and both operations complete (no lookup is out of bounds). -/
theorem feature_indices_in_bounds (net : Network) (e : Eval) (t s : Nat) (c : Bool)
    (ht : t < 6) (hs : s < 64) :
    (64 * t + s < N_FEATURES ∧ 64 * t + (s ^^^ 56) < N_FEATURES ∧
      64 * (6 + t) + s < N_FEATURES ∧ 64 * (6 + t) + (s ^^^ 56) < N_FEATURES) ∧
    N_FEATURES = 768 ∧
    (e.add_piece net t s c).isSome = true ∧ (e.remove_piece net t s c).isSome = true := by
  obtain ⟨h1, h2, h3, h4⟩ := index_bounds ht hs
  refine ⟨⟨h1, h2, h3, h4⟩, rfl, ?_, ?_⟩
  · unfold Eval.add_piece
    cases c <;>
      simp [add_feature_some, h1, h2, h3, h4]
  · unfold Eval.remove_piece
    cases c <;>
      simp [remove_feature_some, h1, h2, h3, h4]

/-- C2: for every piece type `t < 6`, square `s < 64` and colour `c`, `add_piece(t, s, c)`
completes and adds, element by element in 16-bit arithmetic, exactly row `t*64+s` (white piece)
or `(6+t)*64+s` (black piece) to the white accumulator and exactly row `(6+t)*64+(s XOR 56)`
(white piece) or `t*64+(s XOR 56)` (black piece) to the black accumulator;
`remove_piece(t, s, c)` subtracts exactly those same two rows from the same two accumulators. -/
theorem add_remove_piece_rows (net : Network) (e : Eval) (t s : Nat) (c : Bool)
    (ht : t < 6) (hs : s < 64) :
    ∃ (hw : spec_white_index t s c < N_FEATURES) (hb : spec_black_index t s c < N_FEATURES),
      (∃ e1, e.add_piece net t s c = some e1 ∧ ∀ i,
        (e1.white.vals i).val = wrap16 ((e.white.vals i).val +
          ((net.feature_weights ⟨spec_white_index t s c, hw⟩).vals i).val) ∧
        (e1.black.vals i).val = wrap16 ((e.black.vals i).val +
          ((net.feature_weights ⟨spec_black_index t s c, hb⟩).vals i).val)) ∧
      (∃ e2, e.remove_piece net t s c = some e2 ∧ ∀ i,
        (e2.white.vals i).val = wrap16 ((e.white.vals i).val -
          ((net.feature_weights ⟨spec_white_index t s c, hw⟩).vals i).val) ∧
        (e2.black.vals i).val = wrap16 ((e.black.vals i).val -
          ((net.feature_weights ⟨spec_black_index t s c, hb⟩).vals i).val)) := by
  obtain ⟨hw, hb⟩ := spec_index_lt c ht hs
  refine ⟨hw, hb, ⟨_, add_piece_eq_shift net e c ht hs, ?_⟩,
    ⟨_, remove_piece_eq_shift net e c ht hs, ?_⟩⟩
  · intro i
    simp only [Accumulator.shift, I16.ofInt, Network.row, dif_pos hw, dif_pos hb, and_self]
  · intro i
    simp only [Accumulator.shift, I16.ofInt, Network.row, dif_pos hw, dif_pos hb,
      Int.sub_eq_add_neg, and_self]

/-- C3: for every context, weight store, piece type `t < 6`, square `s < 64` and colour,
`add_piece(t, s, c)` followed by `remove_piece(t, s, c)` gives back the context itself: both
accumulators are equal, element for element, to their values before the two calls, whether or
not a 16-bit addition wrapped in between. -/
theorem add_then_remove_restores (net : Network) (e : Eval) (t s : Nat) (c : Bool)
    (ht : t < 6) (hs : s < 64) :
    ((e.add_piece net t s c).bind fun e1 => e1.remove_piece net t s c) = some e := by
  rw [add_piece_eq_shift net e c ht hs, Option.some_bind,
    remove_piece_eq_shift net _ c ht hs, shift_shift, shift_shift]
  congr 1
  apply Eval.ext
  · rw [← shift_zero e.white]
    simp only [shift_shift]
    apply shift_congr; intro i; simp
  · rw [← shift_zero e.black]
    simp only [shift_shift]
    apply shift_congr; intro i; simp

/-- C4: from any starting context, two finite sequences of well-formed `add_piece` /
`remove_piece` calls in which every (piece type, square, colour) triple has the same net count
of adds minus removes both complete, and the two resulting contexts have identical white
accumulators and identical black accumulators. -/
theorem order_independence (net : Network) (e : Eval) (ops1 ops2 : List Op)
    (h1 : ∀ op ∈ ops1, op.piece.wf) (h2 : ∀ op ∈ ops2, op.piece.wf)
    (hcount : ∀ p, Op.net_count ops1 p = Op.net_count ops2 p) :
    ∃ r1 r2, Eval.run net e ops1 = some r1 ∧ Eval.run net e ops2 = some r2 ∧
      r1.white = r2.white ∧ r1.black = r2.black := by
  refine ⟨_, _, run_eq_shift net ops1 e h1, run_eq_shift net ops2 e h2, ?_, ?_⟩
  · exact shift_congr _ (fun i => signed_sum_congr
      (fun p => net.row (spec_white_index p.piece p.square p.is_white) i) ops1 ops2 hcount)
  · exact shift_congr _ (fun i => signed_sum_congr
      (fun p => net.row (spec_black_index p.piece p.square p.is_white) i) ops1 ops2 hcount)

/-! ## Fresh contexts, captures and mirroring -/

theorem delta_white_adds (net : Network) (ps : List Piece) (i : Fin HIDDEN_SIZE) :
    delta_white net (ps.map Op.add) i =
      (ps.map fun p => net.row (spec_white_index p.piece p.square p.is_white) i).sum := by
  simp [delta_white, List.map_map, Function.comp_def, Op.sign, Op.piece]

theorem delta_black_adds (net : Network) (ps : List Piece) (i : Fin HIDDEN_SIZE) :
    delta_black net (ps.map Op.add) i =
      (ps.map fun p => net.row (spec_black_index p.piece p.square p.is_white) i).sum := by
  simp [delta_black, List.map_map, Function.comp_def, Op.sign, Op.piece]

theorem add_all_eq_shift (net : Network) (e : Eval) (ps : List Piece) (h : ∀ p ∈ ps, p.wf) :
    Eval.add_all net e ps =
      some ⟨e.white.shift fun i =>
              (ps.map fun p => net.row (spec_white_index p.piece p.square p.is_white) i).sum,
            e.black.shift fun i =>
              (ps.map fun p => net.row (spec_black_index p.piece p.square p.is_white) i).sum⟩ := by
  have hops : ∀ op ∈ ps.map Op.add, op.piece.wf := by
    intro op hop
    obtain ⟨p, hp, rfl⟩ := List.mem_map.1 hop
    exact h p hp
  unfold Eval.add_all
  rw [run_eq_shift net _ e hops]
  congr 2
  · exact shift_congr _ (delta_white_adds net ps)
  · exact shift_congr _ (delta_black_adds net ps)

theorem erase_sum (f : Piece → Int) (L : List Piece) (x : Piece) (hx : x ∈ L) :
    (L.map f).sum + -f x = ((L.erase x).map f).sum := by
  have h := ((List.perm_cons_erase hx).map f).sum_eq
  simp only [List.map_cons, List.sum_cons] at h
  omega

theorem mirror_wf {p : Piece} (h : p.wf) : p.mirror.wf :=
  ⟨h.1, xor56_lt h.2⟩

theorem spec_white_index_mirror (p : Piece) :
    spec_white_index p.mirror.piece p.mirror.square p.mirror.is_white =
      spec_black_index p.piece p.square p.is_white := by
  unfold spec_white_index spec_black_index Piece.mirror
  cases p.is_white <;> simp

theorem spec_black_index_mirror (p : Piece) :
    spec_black_index p.mirror.piece p.mirror.square p.mirror.is_white =
      spec_white_index p.piece p.square p.is_white := by
  unfold spec_white_index spec_black_index Piece.mirror
  cases p.is_white <;> simp [xor56_xor56]

theorem evaluate_swap (q : Quant) (net : Network) (e : Eval) (w : Bool) :
    e.swap.evaluate q net (!w) = e.evaluate q net w := by
  cases w <;> simp [Eval.evaluate, Eval.swap]

theorem add_all_mirror (net : Network) (L : List Piece) (hL : ∀ p ∈ L, p.wf) :
    ∃ E : Eval, Eval.add_all net (Eval.new net) L = some E ∧
      Eval.add_all net (Eval.new net) (L.map Piece.mirror) = some E.swap := by
  have hM : ∀ p ∈ L.map Piece.mirror, p.wf := by
    intro p hp
    obtain ⟨p0, hp0, rfl⟩ := List.mem_map.1 hp
    exact mirror_wf (hL p0 hp0)
  refine ⟨_, add_all_eq_shift net _ L hL, ?_⟩
  rw [add_all_eq_shift net _ _ hM]
  simp only [Eval.swap, Eval.new, List.map_map, Function.comp_def, spec_white_index_mirror,
    spec_black_index_mirror]

/-- C5: for every list `L` of well-formed pieces and every piece `x` occurring in `L`, adding
every piece of `L` to a fresh context and then calling `remove_piece(x)` gives exactly the same
two accumulators as adding the pieces of `L` with one occurrence of `x` deleted to a fresh
context, so `evaluate` returns the identical integer on both for either side to move. -/
theorem capture_matches_rebuild (q : Quant) (net : Network) (L : List Piece) (x : Piece)
    (hL : ∀ p ∈ L, p.wf) (hx : x ∈ L) :
    ∃ r1 r2,
      ((Eval.add_all net (Eval.new net) L).bind fun e =>
        e.remove_piece net x.piece x.square x.is_white) = some r1 ∧
      Eval.add_all net (Eval.new net) (L.erase x) = some r2 ∧
      r1.white = r2.white ∧ r1.black = r2.black ∧
      ∀ w, r1.evaluate q net w = r2.evaluate q net w := by
  have hE : ∀ p ∈ L.erase x, p.wf := fun p hp => hL p (List.mem_of_mem_erase hp)
  have hxw : x.wf := hL x hx
  have hw : (Eval.new net).white.shift (fun i =>
        (L.map fun p => net.row (spec_white_index p.piece p.square p.is_white) i).sum +
          -net.row (spec_white_index x.piece x.square x.is_white) i) =
      (Eval.new net).white.shift (fun i =>
        ((L.erase x).map fun p =>
          net.row (spec_white_index p.piece p.square p.is_white) i).sum) :=
    shift_congr _ (fun i =>
      erase_sum (fun p => net.row (spec_white_index p.piece p.square p.is_white) i) L x hx)
  have hb : (Eval.new net).black.shift (fun i =>
        (L.map fun p => net.row (spec_black_index p.piece p.square p.is_white) i).sum +
          -net.row (spec_black_index x.piece x.square x.is_white) i) =
      (Eval.new net).black.shift (fun i =>
        ((L.erase x).map fun p =>
          net.row (spec_black_index p.piece p.square p.is_white) i).sum) :=
    shift_congr _ (fun i =>
      erase_sum (fun p => net.row (spec_black_index p.piece p.square p.is_white) i) L x hx)
  refine ⟨⟨(Eval.new net).white.shift _, (Eval.new net).black.shift _⟩, _, ?_,
    add_all_eq_shift net _ _ hE, hw, hb, ?_⟩
  · rw [add_all_eq_shift net _ L hL, Option.some_bind,
      remove_piece_eq_shift net _ x.is_white hxw.1 hxw.2, shift_shift, shift_shift]
  · intro w
    simp only [Eval.evaluate, hw, hb]

/-- C10: for every list of well-formed pieces, the fresh context built from the mirrored list
(each piece `(t, s, c)` replaced by `(t, s XOR 56, opposite colour)`) has its white accumulator
equal to the black accumulator, and its black accumulator equal to the white accumulator, of the
fresh context built from the original list; hence evaluating the mirrored context with the
side to move swapped returns the same integer as evaluating the original one. -/
theorem mirror_swaps_accumulators (q : Quant) (net : Network) (L : List Piece)
    (hL : ∀ p ∈ L, p.wf) :
    ∃ E E0, Eval.add_all net (Eval.new net) L = some E ∧
      Eval.add_all net (Eval.new net) (L.map Piece.mirror) = some E0 ∧
      E0.white = E.black ∧ E0.black = E.white ∧
      ∀ w, E0.evaluate q net (!w) = E.evaluate q net w := by
  obtain ⟨E, h1, h2⟩ := add_all_mirror net L hL
  exact ⟨E, E.swap, h1, h2, rfl, rfl, fun w => evaluate_swap q net E w⟩

/-- C6 (amended): for every list of well-formed pieces and either side to move, evaluating the
fresh context of the colour-swapped, rank-mirrored list with the side to move swapped as well
yields the same score as evaluating the fresh context of the original list (not its negation). -/
theorem mirrored_position_same_score (q : Quant) (net : Network) (L : List Piece)
    (w : Bool) (hL : ∀ p ∈ L, p.wf) :
    ∃ E E0, Eval.add_all net (Eval.new net) L = some E ∧
      Eval.add_all net (Eval.new net) (L.map Piece.mirror) = some E0 ∧
      E0.evaluate q net (!w) = E.evaluate q net w := by
  obtain ⟨E, h1, h2⟩ := add_all_mirror net L hL
  exact ⟨E, E.swap, h1, h2, evaluate_swap q net E w⟩

/-! ## The arithmetic of Network::evaluate -/

theorem wrap16_bounds (x : Int) : -32768 ≤ wrap16 x ∧ wrap16 x ≤ 32767 := by
  unfold wrap16; omega

theorem clamp_bounds (a qa : Int) (h : 0 ≤ qa) : 0 ≤ clamp a 0 qa ∧ clamp a 0 qa ≤ qa := by
  unfold clamp; split_ifs <;> omega

theorem clamp_int16 (a qa : I16) : -32768 ≤ clamp a.val 0 qa.val ∧ clamp a.val 0 qa.val ≤ 32767 := by
  have h1 := a.property
  have h2 := qa.property
  unfold clamp; split_ifs <;> omega

/-- The product `int{input} * int{weight}` of two 16-bit values is representable as `int`. -/
theorem mul_int16_inInt32 {x y : Int} (hx : -32768 ≤ x ∧ x ≤ 32767)
    (hy : -32768 ≤ y ∧ y ≤ 32767) : inInt32 (x * y) := by
  unfold inInt32
  constructor <;> nlinarith [hx.1, hx.2, hy.1, hy.2]

theorem foldl_wrap32_eq (ts : List Int) :
    ∀ out : Int, (∀ t ∈ ts, inInt32 t) →
      (∀ k, k ≤ ts.length → inInt32 (out + (ts.take k).sum)) →
      ts.foldl (fun output t => wrap32 (output + wrap32 t)) out = out + ts.sum := by
  induction ts with
  | nil => intro out _ _; simp
  | cons t ts ih =>
    intro out ht hk
    have h1 := hk 1 (by simp)
    simp only [List.take_succ_cons, List.take_zero, List.sum_cons, List.sum_nil, add_zero] at h1
    have htt := ht t (List.mem_cons_self _ _)
    simp only [List.foldl_cons, wrap32_eq_self htt, wrap32_eq_self h1, List.sum_cons]
    rw [ih (out + t) (fun x hx => ht x (List.mem_cons_of_mem _ hx))]
    · ring
    · intro k hkl
      have := hk (k + 1) (by simpa using hkl)
      simpa [List.take_succ_cons, add_assoc] using this

theorem evaluate_loop_eq (q : Quant) (acc ow : Accumulator) (out : Int) :
    Network.evaluate_loop q acc ow out =
      ((List.finRange HIDDEN_SIZE).map fun i =>
        clamp (acc.vals i).val 0 q.QA.val *
          wrap16 (clamp (acc.vals i).val 0 q.QA.val * (ow.vals i).val)).foldl
        (fun output t => wrap32 (output + wrap32 t)) out := by
  unfold Network.evaluate_loop
  rw [List.foldl_map]
  rfl

theorem evaluate_loops_eq (q : Quant) (net : Network) (us them : Accumulator) :
    Network.evaluate_loop q them (net.output_weights 1)
        (Network.evaluate_loop q us (net.output_weights 0) 0) =
      running_output (net.evaluate_terms q us them) := by
  rw [evaluate_loop_eq, evaluate_loop_eq]
  unfold running_output Network.evaluate_terms
  rw [List.foldl_append]

theorem evaluate_terms_length (q : Quant) (net : Network) (us them : Accumulator) :
    (net.evaluate_terms q us them).length = 2 * HIDDEN_SIZE := by
  simp [Network.evaluate_terms, two_mul]

theorem evaluate_terms_inInt32 (q : Quant) (net : Network) (us them : Accumulator) :
    ∀ t ∈ net.evaluate_terms q us them, inInt32 t := by
  intro t ht
  simp only [Network.evaluate_terms, List.mem_append, List.mem_map] at ht
  rcases ht with ⟨i, _, rfl⟩ | ⟨i, _, rfl⟩
  · exact mul_int16_inInt32 (clamp_int16 _ _) (wrap16_bounds _)
  · exact mul_int16_inInt32 (clamp_int16 _ _) (wrap16_bounds _)

theorem evaluate_terms_bound (q : Quant) (net : Network) (us them : Accumulator)
    (hQA : 0 < q.QA.val ∧ q.QA.val ≤ 255) :
    ∀ t ∈ net.evaluate_terms q us them, -8355840 ≤ t ∧ t ≤ 8355840 := by
  intro t ht
  simp only [Network.evaluate_terms, List.mem_append, List.mem_map] at ht
  rcases ht with ⟨i, _, rfl⟩ | ⟨i, _, rfl⟩
  · have hc := clamp_bounds (us.vals i).val q.QA.val (le_of_lt hQA.1)
    have hw := wrap16_bounds
      (clamp (us.vals i).val 0 q.QA.val * ((net.output_weights 0).vals i).val)
    constructor <;> nlinarith [hc.1, hc.2, hw.1, hw.2, hQA.2]
  · have hc := clamp_bounds (them.vals i).val q.QA.val (le_of_lt hQA.1)
    have hw := wrap16_bounds
      (clamp (them.vals i).val 0 q.QA.val * ((net.output_weights 1).vals i).val)
    constructor <;> nlinarith [hc.1, hc.2, hw.1, hw.2, hQA.2]

theorem sum_bound (B : Int) (ts : List Int) (h : ∀ t ∈ ts, -B ≤ t ∧ t ≤ B) :
    -(ts.length * B) ≤ ts.sum ∧ ts.sum ≤ ts.length * B := by
  induction ts with
  | nil => simp
  | cons t ts ih =>
    have h1 := h t (List.mem_cons_self _ _)
    have h2 := ih (fun x hx => h x (List.mem_cons_of_mem _ hx))
    simp only [List.sum_cons, List.length_cons, Nat.cast_add, Nat.cast_one]
    constructor <;> nlinarith [h1.1, h1.2, h2.1, h2.2]

theorem take_sum_bound (B : Int) (hB : 0 ≤ B) (ts : List Int) (h : ∀ t ∈ ts, -B ≤ t ∧ t ≤ B)
    (k : Nat) : -(k * B) ≤ (ts.take k).sum ∧ (ts.take k).sum ≤ k * B := by
  have h1 := sum_bound B (ts.take k) (fun t ht => h t (List.mem_of_mem_take ht))
  have h2 : ((ts.take k).length : Int) ≤ k := by
    exact_mod_cast List.length_take_le k ts
  constructor <;> nlinarith [h1.1, h1.2]

theorem running_sums_in_range (q : Quant) (net : Network) (us them : Accumulator)
    (hQA : 0 < q.QA.val ∧ q.QA.val ≤ 255) :
    (∀ k, k ≤ 2 * HIDDEN_SIZE →
      inInt32 (((net.evaluate_terms q us them).take k).sum) ∧
      running_output ((net.evaluate_terms q us them).take k) =
        ((net.evaluate_terms q us them).take k).sum) ∧
    (net.evaluate_terms q us them).length = 2 * HIDDEN_SIZE ∧
    Network.evaluate_loop q them (net.output_weights 1)
        (Network.evaluate_loop q us (net.output_weights 0) 0) =
      running_output (net.evaluate_terms q us them) := by
  have hb := evaluate_terms_bound q net us them hQA
  have hin : ∀ k, k ≤ 2 * HIDDEN_SIZE →
      inInt32 (((net.evaluate_terms q us them).take k).sum) := by
    intro k hk
    have h := take_sum_bound 8355840 (by norm_num) _ hb k
    have hk2 : (k : Int) ≤ 256 := by
      have : k ≤ 256 := hk
      exact_mod_cast this
    unfold inInt32
    constructor <;> nlinarith [h.1, h.2]
  refine ⟨fun k hk => ⟨hin k hk, ?_⟩, evaluate_terms_length q net us them,
    evaluate_loops_eq q net us them⟩
  unfold running_output
  rw [foldl_wrap32_eq _ 0 (fun t ht => evaluate_terms_inInt32 q net us them t
    (List.mem_of_mem_take ht))]
  · ring
  · intro j hj
    rw [zero_add, List.take_take]
    apply hin
    exact le_trans (min_le_right _ _) hk

theorem evaluate_terms_eq_spec_terms (q : Quant) (net : Network) (own opp : Accumulator)
    (h0 : products_fit q own (net.output_weights 0))
    (h1 : products_fit q opp (net.output_weights 1)) :
    net.evaluate_terms q own opp = spec_terms q net own opp := by
  unfold Network.evaluate_terms spec_terms
  congr 1
  · apply List.map_congr_left
    intro i _
    rw [wrap16_eq_self (h0 i)]
    ring
  · apply List.map_congr_left
    intro i _
    rw [wrap16_eq_self (h1 i)]
    ring

theorem spec_terms_sum (q : Quant) (net : Network) (own opp : Accumulator) :
    (spec_terms q net own opp).sum = spec_sum q net own opp := by
  unfold spec_terms spec_sum
  rw [List.sum_append]

theorem spec_terms_length (q : Quant) (net : Network) (own opp : Accumulator) :
    (spec_terms q net own opp).length = 2 * HIDDEN_SIZE := by
  simp [spec_terms, two_mul]

theorem network_evaluate_eq_spec_score (q : Quant) (net : Network) (own opp : Accumulator)
    (h0 : products_fit q own (net.output_weights 0))
    (h1 : products_fit q opp (net.output_weights 1))
    (hdef : evaluate_defined q net own opp) :
    net.evaluate q own opp = spec_score q net own opp := by
  obtain ⟨_, _, hsum, hdiv, hbias, hscale, hden, hres⟩ := hdef
  have hterms := evaluate_terms_eq_spec_terms q net own opp h0 h1
  have hrun : running_output (net.evaluate_terms q own opp) = spec_sum q net own opp := by
    unfold running_output
    rw [foldl_wrap32_eq _ 0 (evaluate_terms_inInt32 q net own opp), hterms, zero_add,
      spec_terms_sum]
    intro k hk
    rw [hterms, zero_add]
    apply hsum
    rw [hterms, spec_terms_length] at hk
    exact hk
  unfold Network.evaluate
  simp only [evaluate_loops_eq, hrun, wrap32_eq_self hdiv, wrap32_eq_self hbias,
    wrap32_eq_self hscale, wrap32_eq_self hden]
  exact wrap32_eq_self hres

/-- C1 (amended): `Eval::evaluate(white_to_move)` takes the accumulator of the side to move as
own and the other one as opp (white/black when `white_to_move`, black/white otherwise).  Provided
every 16-bit product `clamp(acc[i], 0, QA) * output_weights[p][i]` fits a `std::int16_t` and the
`int` arithmetic is defined (non-zero divisors, no intermediate overflow), it returns exactly
`trunc((trunc(S / QA) + output_bias) * SCALE / (QA * QB))` with `S` the sum over both
perspectives of `clamp(acc[i], 0, QA)^2 * output_weights[p][i]`. -/
theorem evaluate_eq_spec_score (q : Quant) (net : Network) (e : Eval) (white_to_move : Bool)
    (h0 : products_fit q (if white_to_move then e.white else e.black) (net.output_weights 0))
    (h1 : products_fit q (if white_to_move then e.black else e.white) (net.output_weights 1))
    (hdef : evaluate_defined q net (if white_to_move then e.white else e.black)
      (if white_to_move then e.black else e.white)) :
    e.evaluate q net white_to_move =
      spec_score q net (if white_to_move then e.white else e.black)
        (if white_to_move then e.black else e.white) := by
  cases white_to_move
  · simp only [Bool.false_eq_true, if_false] at h0 h1 hdef ⊢
    simp only [Eval.evaluate, Bool.false_eq_true, if_false]
    exact network_evaluate_eq_spec_score q net e.black e.white h0 h1 hdef
  · simp only [if_true] at h0 h1 hdef ⊢
    simp only [Eval.evaluate, if_true]
    exact network_evaluate_eq_spec_score q net e.white e.black h0 h1 hdef

/-! ## Evaluation on the sample inputs -/

theorem finRange_map_const_sum (n : Nat) (c : Int) :
    ((List.finRange n).map fun _ => c).sum = n * c := by
  simp [List.map_const', List.sum_replicate]

theorem wide_terms_sum :
    (wide_net.evaluate_terms sample_quant wide_eval.white wide_eval.black).sum = -474455040 := by
  have h1 : ∀ i : Fin HIDDEN_SIZE,
      clamp (wide_eval.white.vals i).val 0 sample_quant.QA.val *
        wrap16 (clamp (wide_eval.white.vals i).val 0 sample_quant.QA.val *
          ((wide_net.output_weights 0).vals i).val) = -3706680 := by
    intro i; simp only [wide_eval, wide_net, const_acc, sample_quant]; decide
  have h2 : ∀ i : Fin HIDDEN_SIZE,
      clamp (wide_eval.black.vals i).val 0 sample_quant.QA.val *
        wrap16 (clamp (wide_eval.black.vals i).val 0 sample_quant.QA.val *
          ((wide_net.output_weights 1).vals i).val) = 0 := by
    intro i; simp only [wide_eval, wide_net, const_acc, sample_quant]; decide
  unfold Network.evaluate_terms
  simp only [h1, h2, List.sum_append, finRange_map_const_sum]
  decide

theorem wide_spec_sum :
    spec_sum sample_quant wide_net wide_eval.white wide_eval.black = 1664640000 := by
  have h1 : ∀ i : Fin HIDDEN_SIZE,
      (clamp (wide_eval.white.vals i).val 0 sample_quant.QA.val) ^ 2 *
          ((wide_net.output_weights 0).vals i).val = 13005000 := by
    intro i; simp only [wide_eval, wide_net, const_acc, sample_quant]; decide
  have h2 : ∀ i : Fin HIDDEN_SIZE,
      (clamp (wide_eval.black.vals i).val 0 sample_quant.QA.val) ^ 2 *
          ((wide_net.output_weights 1).vals i).val = 0 := by
    intro i; simp only [wide_eval, wide_net, const_acc, sample_quant]; decide
  unfold spec_sum
  simp only [h1, h2, finRange_map_const_sum]
  decide

theorem running_output_terms (q : Quant) (net : Network) (us them : Accumulator)
    (hQA : 0 < q.QA.val ∧ q.QA.val ≤ 255) :
    running_output (net.evaluate_terms q us them) = (net.evaluate_terms q us them).sum := by
  have h := (running_sums_in_range q net us them hQA).1 (2 * HIDDEN_SIZE) (le_refl _)
  rw [List.take_of_length_le (le_of_eq (evaluate_terms_length q net us them))] at h
  exact h.2

/-- C7: in `Network::evaluate` with `HIDDEN_SIZE = 128` and `0 < QA <= 255`, for all
accumulators and output weights, after each of the `2 * HIDDEN_SIZE` additions the running sum
`output` is the exact sum of the addends so far and lies in `[-2^31, 2^31 - 1]`: no overflow
occurs before the first division by `QA`.  The two loops compute exactly this running sum. -/
theorem evaluate_sum_no_overflow (q : Quant) (net : Network) (us them : Accumulator)
    (hQA : 0 < q.QA.val ∧ q.QA.val ≤ 255) :
    (∀ k, k ≤ 2 * HIDDEN_SIZE →
      inInt32 (((net.evaluate_terms q us them).take k).sum) ∧
      running_output ((net.evaluate_terms q us them).take k) =
        ((net.evaluate_terms q us them).take k).sum) ∧
    (net.evaluate_terms q us them).length = 2 * HIDDEN_SIZE ∧
    Network.evaluate_loop q them (net.output_weights 1)
        (Network.evaluate_loop q us (net.output_weights 0) 0) =
      running_output (net.evaluate_terms q us them) :=
  running_sums_in_range q net us them hQA

theorem sample_quant_QA : 0 < sample_quant.QA.val ∧ sample_quant.QA.val ≤ 255 := by
  decide

theorem wide_evaluate : wide_eval.evaluate sample_quant wide_net true = -45603 := by
  simp only [Eval.evaluate, if_true, Network.evaluate, evaluate_loops_eq,
    running_output_terms _ _ _ _ sample_quant_QA, wide_terms_sum]
  decide

theorem wide_spec_score :
    spec_score sample_quant wide_net wide_eval.white wide_eval.black = 160000 := by
  simp only [spec_score, wide_spec_sum]
  decide

/-- C1 (counterexample): with `QA = 255`, `QB = 64`, `SCALE = 400`, every output weight `200`,
own accumulator all `255` and opp accumulator all `0`, each product `255 * 200 = 51000` is stored
in a `std::int16_t` as `-14536`; `evaluate` returns `-45603` while the formula gives `160000`. -/
theorem evaluate_int16_counterexample :
    wide_eval.evaluate sample_quant wide_net true = -45603 ∧
    spec_score sample_quant wide_net wide_eval.white wide_eval.black = 160000 ∧
    wide_eval.evaluate sample_quant wide_net true ≠
      spec_score sample_quant wide_net wide_eval.white wide_eval.black := by
  refine ⟨wide_evaluate, wide_spec_score, ?_⟩
  rw [wide_evaluate, wide_spec_score]
  decide

theorem sample_net_evaluate (us them : Accumulator) :
    sample_net.evaluate sample_quant us them = 2 := by
  have h1 : ∀ i : Fin HIDDEN_SIZE,
      clamp (us.vals i).val 0 sample_quant.QA.val *
        wrap16 (clamp (us.vals i).val 0 sample_quant.QA.val *
          ((sample_net.output_weights 0).vals i).val) = 0 := by
    intro i; simp [sample_net, const_acc, wrap16]
  have h2 : ∀ i : Fin HIDDEN_SIZE,
      clamp (them.vals i).val 0 sample_quant.QA.val *
        wrap16 (clamp (them.vals i).val 0 sample_quant.QA.val *
          ((sample_net.output_weights 1).vals i).val) = 0 := by
    intro i; simp [sample_net, const_acc, wrap16]
  have hs : (sample_net.evaluate_terms sample_quant us them).sum = 0 := by
    unfold Network.evaluate_terms
    simp only [h1, h2, List.sum_append, finRange_map_const_sum]
    simp
  simp only [Network.evaluate, evaluate_loops_eq,
    running_output_terms _ _ _ _ sample_quant_QA, hs]
  decide

/-- C6 (counterexample): with zero output weights and output bias `100` (`QA = 255`, `QB = 64`,
`SCALE = 400`), a white pawn on e2 evaluates to `2` with white to move, and the mirrored
position (a black pawn on e7) evaluates to `2` with black to move: equal, not negated. -/
theorem perspective_symmetry_counterexample :
    ∃ E E0, Eval.add_all sample_net (Eval.new sample_net) [sample_pawn] = some E ∧
      Eval.add_all sample_net (Eval.new sample_net) ([sample_pawn].map Piece.mirror) = some E0 ∧
      E.evaluate sample_quant sample_net true = 2 ∧
      E0.evaluate sample_quant sample_net (!true) = 2 ∧
      E0.evaluate sample_quant sample_net (!true) ≠ -E.evaluate sample_quant sample_net true := by
  have hwf : ∀ p ∈ [sample_pawn], p.wf := by
    intro p hp
    rw [List.mem_singleton.1 hp]
    decide
  obtain ⟨E, h1, h2⟩ := add_all_mirror sample_net [sample_pawn] hwf
  have e1 : E.evaluate sample_quant sample_net true = 2 := by
    simp only [Eval.evaluate, if_true, sample_net_evaluate]
  have e2 : E.swap.evaluate sample_quant sample_net (!true) = 2 := by
    simp only [Eval.evaluate, Bool.not_true, Bool.false_eq_true, if_false, sample_net_evaluate]
  refine ⟨E, E.swap, h1, h2, e1, e2, ?_⟩
  rw [e1, e2]
  decide

/-! ## The bitboard loops of nnue_evaluate -/

theorem ctz_spec (n : Nat) : ∀ v : Nat, v ≠ 0 → v < 2 ^ n →
    ctz n v < n ∧ v.testBit (ctz n v) = true ∧ (∀ i, i < ctz n v → v.testBit i = false) ∧
    ∀ i, (v - 1).testBit i =
      if i < ctz n v then true else if i = ctz n v then false else v.testBit i := by
  induction n with
  | zero => intro v h0 hlt; simp at hlt; omega
  | succ n ih =>
    intro v h0 hlt
    by_cases hodd : v % 2 = 1
    · simp only [ctz, hodd, if_true]
      refine ⟨by omega, by simp [Nat.testBit_zero, hodd], fun i hi => by omega, ?_⟩
      intro i
      cases i with
      | zero =>
        simp only [Nat.testBit_zero, lt_self_iff_false, if_false, if_true]
        simp; omega
      | succ j =>
        have : (v - 1) / 2 = v / 2 := by omega
        simp [Nat.testBit_succ, this]
    · have hev : v % 2 = 0 := by omega
      have hv2 : v / 2 ≠ 0 := by omega
      have hlt2 : v / 2 < 2 ^ n := by
        rw [pow_succ] at hlt; omega
      obtain ⟨a, b, c, d⟩ := ih (v / 2) hv2 hlt2
      simp only [ctz, hodd, if_false]
      refine ⟨by omega, ?_, ?_, ?_⟩
      · rw [Nat.add_comm, Nat.testBit_succ]; exact b
      · intro i hi
        cases i with
        | zero => simp [Nat.testBit_zero, hev]
        | succ j => rw [Nat.testBit_succ]; exact c j (by omega)
      · intro i
        cases i with
        | zero =>
          have : (v - 1) % 2 = 1 := by omega
          simp [Nat.testBit_zero, this]
        | succ j =>
          have h1 : (v - 1) / 2 = v / 2 - 1 := by omega
          rw [Nat.testBit_succ, Nat.testBit_succ, h1, d j]
          have e1 : (j + 1 < 1 + ctz n (v / 2)) ↔ (j < ctz n (v / 2)) := by omega
          have e2 : (j + 1 = 1 + ctz n (v / 2)) ↔ (j = ctz n (v / 2)) := by omega
          simp only [e1, e2]


theorem popbit_testBit (bb : Bitboard) (h0 : bb.value ≠ 0) (i : Nat) :
    bb.forward_popbit.value.testBit i =
      (bb.value.testBit i && decide (i ≠ bb.forward_bitscan)) := by
  obtain ⟨_, hb, hc, hd⟩ := ctz_spec 64 bb.value h0 bb.lt
  simp only [Bitboard.forward_popbit, Bitboard.forward_bitscan, Nat.testBit_and, hd i]
  by_cases h1 : i < ctz 64 bb.value
  · simp [h1, hc i h1]
  · by_cases h2 : i = ctz 64 bb.value
    · simp [h2]
    · simp [h1, h2]

theorem squares_zero (bb : Bitboard) (h0 : bb.value = 0) : bb.squares = [] := by
  simp [Bitboard.squares, h0]

theorem squares_cons (bb : Bitboard) (h0 : bb.value ≠ 0) :
    bb.squares = bb.forward_bitscan :: bb.forward_popbit.squares := by
  obtain ⟨ha, hb, hc, _⟩ := ctz_spec 64 bb.value h0 bb.lt
  have hpop := popbit_testBit bb h0
  have hs1 : List.Sorted (fun x1 x2 => x1 < x2) bb.squares :=
    (List.sorted_lt_range 64).filter _
  have hs2 : List.Sorted (fun x1 x2 => x1 < x2)
      (bb.forward_bitscan :: bb.forward_popbit.squares) := by
    refine List.sorted_cons.2 ⟨?_, (List.sorted_lt_range 64).filter _⟩
    intro x hx
    simp only [Bitboard.squares, List.mem_filter, hpop, Bool.and_eq_true,
      decide_eq_true_eq] at hx
    by_contra hlt
    have hx2 : x < bb.forward_bitscan := by
      have := hx.2.2
      omega
    have := hc x hx2
    rw [this] at hx
    exact absurd hx.2.1 (by decide)
  apply List.eq_of_perm_of_sorted _ hs1 hs2
  rw [List.perm_ext_iff_of_nodup hs1.nodup hs2.nodup]
  intro x
  simp only [Bitboard.squares, List.mem_filter, List.mem_range, List.mem_cons, hpop,
    Bool.and_eq_true, decide_eq_true_eq]
  constructor
  · intro ⟨h1, h2⟩
    by_cases hx : x = bb.forward_bitscan
    · exact Or.inl hx
    · exact Or.inr ⟨h1, h2, hx⟩
  · intro h
    rcases h with h | ⟨h1, h2, _⟩
    · rw [h]; exact ⟨ha, hb⟩
    · exact ⟨h1, h2⟩

theorem squares_length_le (bb : Bitboard) : bb.squares.length ≤ 64 := by
  have := List.length_filter_le (fun s => bb.value.testBit s) (List.range 64)
  simpa [Bitboard.squares] using this

theorem scan_loop_eq (net : Network) (type : Nat) (is_white : Bool) (fuel : Nat) :
    ∀ (bb : Bitboard) (e : Eval), bb.squares.length ≤ fuel →
      scan_loop net type is_white fuel bb e =
        Eval.add_all net e (bb.squares.map fun s => Piece.mk type s is_white) := by
  induction fuel with
  | zero =>
    intro bb e hlen
    by_cases h0 : bb.value = 0
    · simp [scan_loop, h0, squares_zero bb h0, Eval.add_all, Eval.run]
    · rw [squares_cons bb h0] at hlen
      simp at hlen
  | succ fuel ih =>
    intro bb e hlen
    by_cases h0 : bb.value = 0
    · simp [scan_loop, h0, squares_zero bb h0, Eval.add_all, Eval.run]
    · rw [squares_cons bb h0] at hlen ⊢
      have hlen2 : bb.forward_popbit.squares.length ≤ fuel := by
        simp only [List.length_cons] at hlen; omega
      simp only [scan_loop, h0, if_false, List.map_cons, Eval.add_all, Eval.run, Eval.apply]
      congr 1
      funext e1
      rw [ih bb.forward_popbit e1 hlen2]
      rfl

theorem add_all_append (net : Network) (e : Eval) (l1 l2 : List Piece) :
    Eval.add_all net e (l1 ++ l2) =
      (Eval.add_all net e l1).bind fun e1 => Eval.add_all net e1 l2 := by
  unfold Eval.add_all
  rw [List.map_append, run_append]

theorem type_loop_eq (net : Network) (pos : Position) (types : List Nat) :
    ∀ e : Eval, type_loop net pos types e =
      Eval.add_all net e (types.flatMap fun t =>
        ((pos.piece_type_bb t true).squares.map fun s => Piece.mk t s true) ++
        ((pos.piece_type_bb t false).squares.map fun s => Piece.mk t s false)) := by
  induction types with
  | nil => intro e; simp [type_loop, Eval.add_all, Eval.run]
  | cons t ts ih =>
    intro e
    simp only [type_loop, List.flatMap_cons, add_all_append,
      scan_loop_eq net t _ 64 _ _ (squares_length_le _), Option.bind_assoc, ih]

theorem mem_squares (bb : Bitboard) (s : Nat) :
    s ∈ bb.squares ↔ s < 64 ∧ bb.value.testBit s = true := by
  simp [Bitboard.squares]

theorem squares_nodup (bb : Bitboard) : bb.squares.Nodup :=
  (List.nodup_range 64).filter _

theorem mem_pieces (pos : Position) (p : Piece) :
    p ∈ pos.pieces ↔ p.piece < 6 ∧ p.square < 64 ∧
      (pos.piece_type_bb p.piece p.is_white).value.testBit p.square = true := by
  obtain ⟨t, s, c⟩ := p
  simp only [Position.pieces, List.mem_flatMap, List.mem_append, List.mem_map, mem_squares,
    Piece.mk.injEq]
  constructor
  · rintro ⟨t0, ht0, ⟨s0, ⟨h1, h2⟩, rfl, rfl, rfl⟩ | ⟨s0, ⟨h1, h2⟩, rfl, rfl, rfl⟩⟩
    · refine ⟨?_, h1, h2⟩
      simp [PIECE_TYPES] at ht0; omega
    · refine ⟨?_, h1, h2⟩
      simp [PIECE_TYPES] at ht0; omega
  · rintro ⟨h1, h2, h3⟩
    refine ⟨t, ?_, ?_⟩
    · simp [PIECE_TYPES]; omega
    · cases c
      · exact Or.inr ⟨s, ⟨h2, h3⟩, rfl, rfl, rfl⟩
      · exact Or.inl ⟨s, ⟨h2, h3⟩, rfl, rfl, rfl⟩

theorem pieces_nodup (pos : Position) : pos.pieces.Nodup := by
  unfold Position.pieces
  rw [List.nodup_flatMap]
  constructor
  · intro t _
    rw [List.nodup_append]
    refine ⟨(squares_nodup _).map ?_, (squares_nodup _).map ?_, ?_⟩
    · intro a b h; simpa using h
    · intro a b h; simpa using h
    · intro p h1 h2
      simp only [List.mem_map] at h1 h2
      obtain ⟨_, _, rfl⟩ := h1
      obtain ⟨_, _, h⟩ := h2
      simp at h
  · have hne : List.Pairwise (fun a b : Nat => a ≠ b) PIECE_TYPES := by decide
    refine hne.imp ?_
    intro a b hab p h1 h2
    simp only [List.mem_append, List.mem_map] at h1 h2
    have ha : p.piece = a := by
      rcases h1 with ⟨_, _, rfl⟩ | ⟨_, _, rfl⟩ <;> rfl
    have hb : p.piece = b := by
      rcases h2 with ⟨_, _, rfl⟩ | ⟨_, _, rfl⟩ <;> rfl
    exact hab (ha.symm.trans hb)

/-- C8: for every position, `nnue_evaluate` returns (the fuel of no loop runs out, no lookup is
out of bounds) `Eval::evaluate(side to move is white)` of the context that starts with both
accumulators equal to the feature bias vector (which is what `Eval::Eval` constructs) and to
which `add_piece` was applied once for each piece of the board: the list of these calls has no
duplicate and holds exactly the triples (type `< 6`, square `< 64`, colour) whose bitboard has
that square set.  The result depends on the weights and the position only. -/
theorem nnue_evaluate_replays_pieces (q : Quant) (net : Network) (pos : Position) :
    ((Eval.new net).white = net.feature_bias ∧ (Eval.new net).black = net.feature_bias) ∧
    (∃ e, Eval.add_all net ⟨net.feature_bias, net.feature_bias⟩ pos.pieces = some e ∧
      nnue_evaluate q net pos = some (e.evaluate q net pos.white_to_move)) ∧
    pos.pieces.Nodup ∧
    ∀ p : Piece, p ∈ pos.pieces ↔ p.piece < 6 ∧ p.square < 64 ∧
      (pos.piece_type_bb p.piece p.is_white).value.testBit p.square = true := by
  refine ⟨⟨rfl, rfl⟩, ?_, pieces_nodup pos, mem_pieces pos⟩
  have hwf : ∀ p ∈ pos.pieces, p.wf := fun p hp =>
    ⟨((mem_pieces pos p).1 hp).1, ((mem_pieces pos p).1 hp).2.1⟩
  have hnew : Eval.new net = ⟨net.feature_bias, net.feature_bias⟩ := rfl
  have h := add_all_eq_shift net ⟨net.feature_bias, net.feature_bias⟩ pos.pieces hwf
  refine ⟨_, h, ?_⟩
  unfold nnue_evaluate
  rw [type_loop_eq, hnew]
  unfold Position.pieces at h
  rw [h]
  rfl

/-! ## Concrete instances -/

theorem unit_products_fit (k : Fin 2) :
    products_fit sample_quant (Eval.new unit_net).white (unit_net.output_weights k) := by
  intro i
  simp only [Eval.new, unit_net, const_acc, sample_quant]
  decide

theorem unit_spec_terms_bound :
    ∀ t ∈ spec_terms sample_quant unit_net (Eval.new unit_net).white (Eval.new unit_net).black,
      -9 ≤ t ∧ t ≤ 9 := by
  intro t ht
  simp only [spec_terms, List.mem_append, List.mem_map] at ht
  rcases ht with ⟨i, _, rfl⟩ | ⟨i, _, rfl⟩ <;>
    · simp only [Eval.new, unit_net, const_acc, sample_quant]
      decide

theorem unit_spec_sum :
    spec_sum sample_quant unit_net (Eval.new unit_net).white (Eval.new unit_net).black = 2304 := by
  have h1 : ∀ (k : Fin 2) (i : Fin HIDDEN_SIZE),
      (clamp ((Eval.new unit_net).white.vals i).val 0 sample_quant.QA.val) ^ 2 *
          ((unit_net.output_weights k).vals i).val = 9 := by
    intro k i; simp only [Eval.new, unit_net, const_acc, sample_quant]; decide
  have h2 : ∀ (k : Fin 2) (i : Fin HIDDEN_SIZE),
      (clamp ((Eval.new unit_net).black.vals i).val 0 sample_quant.QA.val) ^ 2 *
          ((unit_net.output_weights k).vals i).val = 9 := by
    intro k i; simp only [Eval.new, unit_net, const_acc, sample_quant]; decide
  unfold spec_sum
  simp only [h1, h2, finRange_map_const_sum]
  decide

theorem unit_evaluate_defined :
    evaluate_defined sample_quant unit_net (Eval.new unit_net).white (Eval.new unit_net).black := by
  unfold evaluate_defined spec_score
  rw [unit_spec_sum]
  refine ⟨by decide, by decide, ?_, by decide, by decide, by decide, by decide, by decide⟩
  intro k hk
  have h := take_sum_bound 9 (by norm_num) _ unit_spec_terms_bound k
  have hk2 : (k : Int) ≤ 256 := by
    have : k ≤ 256 := hk
    exact_mod_cast this
  unfold inInt32
  constructor <;> nlinarith [h.1, h.2]

theorem evaluate_eq_spec_score_witness :
    (Eval.new unit_net).evaluate sample_quant unit_net true =
      spec_score sample_quant unit_net
        (if true then (Eval.new unit_net).white else (Eval.new unit_net).black)
        (if true then (Eval.new unit_net).black else (Eval.new unit_net).white) :=
  evaluate_eq_spec_score sample_quant unit_net (Eval.new unit_net) true
    (unit_products_fit 0) (unit_products_fit 1) unit_evaluate_defined

theorem sample_wf : ∀ p ∈ [sample_pawn, sample_king], p.wf := by
  intro p hp
  simp only [List.mem_cons, List.mem_singleton, List.not_mem_nil, or_false] at hp
  rcases hp with rfl | rfl <;> decide

theorem add_remove_piece_rows_witness :
    ∃ (hw : spec_white_index 0 12 true < N_FEATURES)
      (hb : spec_black_index 0 12 true < N_FEATURES),
      (∃ e1, (Eval.new sample_net).add_piece sample_net 0 12 true = some e1 ∧ ∀ i,
        (e1.white.vals i).val = wrap16 (((Eval.new sample_net).white.vals i).val +
          ((sample_net.feature_weights ⟨spec_white_index 0 12 true, hw⟩).vals i).val) ∧
        (e1.black.vals i).val = wrap16 (((Eval.new sample_net).black.vals i).val +
          ((sample_net.feature_weights ⟨spec_black_index 0 12 true, hb⟩).vals i).val)) ∧
      (∃ e2, (Eval.new sample_net).remove_piece sample_net 0 12 true = some e2 ∧ ∀ i,
        (e2.white.vals i).val = wrap16 (((Eval.new sample_net).white.vals i).val -
          ((sample_net.feature_weights ⟨spec_white_index 0 12 true, hw⟩).vals i).val) ∧
        (e2.black.vals i).val = wrap16 (((Eval.new sample_net).black.vals i).val -
          ((sample_net.feature_weights ⟨spec_black_index 0 12 true, hb⟩).vals i).val)) :=
  add_remove_piece_rows sample_net (Eval.new sample_net) 0 12 true (by decide) (by decide)

theorem add_then_remove_restores_witness :
    (((Eval.new sample_net).add_piece sample_net 0 12 true).bind fun e1 =>
      e1.remove_piece sample_net 0 12 true) = some (Eval.new sample_net) :=
  add_then_remove_restores sample_net (Eval.new sample_net) 0 12 true (by decide) (by decide)

theorem order_independence_witness :
    ∃ r1 r2,
      Eval.run sample_net (Eval.new sample_net)
        [Op.add sample_pawn, Op.add sample_king, Op.remove sample_pawn] = some r1 ∧
      Eval.run sample_net (Eval.new sample_net) [Op.add sample_king] = some r2 ∧
      r1.white = r2.white ∧ r1.black = r2.black :=
  order_independence sample_net (Eval.new sample_net)
    [Op.add sample_pawn, Op.add sample_king, Op.remove sample_pawn] [Op.add sample_king]
    (by
      intro op hop
      simp only [List.mem_cons, List.mem_singleton, List.not_mem_nil, or_false] at hop
      rcases hop with rfl | rfl | rfl <;> decide)
    (by
      intro op hop
      simp only [List.mem_singleton] at hop
      subst hop; decide)
    (by
      intro p
      simp only [net_count_cons, net_count_nil, Op.piece, Op.sign]
      split_ifs <;> omega)

theorem capture_matches_rebuild_witness :
    ∃ r1 r2,
      ((Eval.add_all sample_net (Eval.new sample_net) [sample_pawn, sample_king]).bind fun e =>
        e.remove_piece sample_net sample_king.piece sample_king.square sample_king.is_white) =
          some r1 ∧
      Eval.add_all sample_net (Eval.new sample_net) ([sample_pawn, sample_king].erase sample_king)
        = some r2 ∧
      r1.white = r2.white ∧ r1.black = r2.black ∧
      ∀ w, r1.evaluate sample_quant sample_net w = r2.evaluate sample_quant sample_net w :=
  capture_matches_rebuild sample_quant sample_net [sample_pawn, sample_king] sample_king
    sample_wf (by simp)

theorem mirrored_position_same_score_witness :
    ∃ E E0, Eval.add_all sample_net (Eval.new sample_net) [sample_pawn, sample_king] = some E ∧
      Eval.add_all sample_net (Eval.new sample_net)
        ([sample_pawn, sample_king].map Piece.mirror) = some E0 ∧
      E0.evaluate sample_quant sample_net (!true) = E.evaluate sample_quant sample_net true :=
  mirrored_position_same_score sample_quant sample_net [sample_pawn, sample_king] true sample_wf

theorem mirror_swaps_accumulators_witness :
    ∃ E E0, Eval.add_all unit_net (Eval.new unit_net) [sample_pawn, sample_king] = some E ∧
      Eval.add_all unit_net (Eval.new unit_net)
        ([sample_pawn, sample_king].map Piece.mirror) = some E0 ∧
      E0.white = E.black ∧ E0.black = E.white ∧
      ∀ w, E0.evaluate sample_quant unit_net (!w) = E.evaluate sample_quant unit_net w :=
  mirror_swaps_accumulators sample_quant unit_net [sample_pawn, sample_king] sample_wf

theorem evaluate_sum_no_overflow_witness :
    (∀ k, k ≤ 2 * HIDDEN_SIZE →
      inInt32 (((wide_net.evaluate_terms sample_quant wide_eval.white wide_eval.black).take k).sum)
        ∧
      running_output ((wide_net.evaluate_terms sample_quant wide_eval.white wide_eval.black).take k)
        = ((wide_net.evaluate_terms sample_quant wide_eval.white wide_eval.black).take k).sum) ∧
    (wide_net.evaluate_terms sample_quant wide_eval.white wide_eval.black).length
      = 2 * HIDDEN_SIZE ∧
    Network.evaluate_loop sample_quant wide_eval.black (wide_net.output_weights 1)
        (Network.evaluate_loop sample_quant wide_eval.white (wide_net.output_weights 0) 0) =
      running_output (wide_net.evaluate_terms sample_quant wide_eval.white wide_eval.black) :=
  evaluate_sum_no_overflow sample_quant wide_net wide_eval.white wide_eval.black (by decide)

theorem feature_indices_in_bounds_witness :
    (64 * 5 + 63 < N_FEATURES ∧ 64 * 5 + (63 ^^^ 56) < N_FEATURES ∧
      64 * (6 + 5) + 63 < N_FEATURES ∧ 64 * (6 + 5) + (63 ^^^ 56) < N_FEATURES) ∧
    N_FEATURES = 768 ∧
    ((Eval.new sample_net).add_piece sample_net 5 63 false).isSome = true ∧
    ((Eval.new sample_net).remove_piece sample_net 5 63 false).isSome = true :=
  feature_indices_in_bounds sample_net (Eval.new sample_net) 5 63 false (by decide) (by decide)

/-! ## The 16-bit product of Network::evaluate -/

theorem wrap16_eq_reduce16 (x : Int) : wrap16 x = reduce16 x := by
  unfold wrap16 reduce16
  simp only
  split_ifs <;> omega

theorem reduce16_spec (x : Int) :
    inInt16 (reduce16 x) ∧ (reduce16 x - x) % 65536 = 0 ∧ (inInt16 x → reduce16 x = x) := by
  unfold reduce16 inInt16
  simp only
  refine ⟨?_, ?_, ?_⟩
  · split_ifs <;> omega
  · split_ifs <;> omega
  · intro h
    split_ifs <;> omega

theorem evaluate_terms_reduce16 (q : Quant) (net : Network) (us them : Accumulator) :
    net.evaluate_terms q us them =
      ((List.finRange HIDDEN_SIZE).map fun i =>
        clamp (us.vals i).val 0 q.QA.val *
          reduce16 (clamp (us.vals i).val 0 q.QA.val * ((net.output_weights 0).vals i).val)) ++
      ((List.finRange HIDDEN_SIZE).map fun i =>
        clamp (them.vals i).val 0 q.QA.val *
          reduce16 (clamp (them.vals i).val 0 q.QA.val * ((net.output_weights 1).vals i).val)) := by
  unfold Network.evaluate_terms
  simp only [wrap16_eq_reduce16]

/-- C11: `Network::evaluate` stores each product `clamp(acc[i], 0, QA) * output_weight[i]` in a
`std::int16_t` before multiplying by the clamped input again.  When every one of the
`2 * HIDDEN_SIZE` products fits 16 bits and the `int` arithmetic is defined (non-zero divisors,
no signed 32-bit intermediate overflow), the result is
`trunc((trunc(S / QA) + output_bias) * SCALE / (QA * QB))` with `S` the sum over both
perspectives of `clamp(acc[i], 0, QA)^2 * output_weight[i]`.  In every case each addend of
`output` is the clamped input times the product reduced modulo `2^16` to a signed value, which
lies in `[-32768, 32767]`, is congruent to the product and is the product itself when that
fits. -/
theorem network_evaluate_int16_products (q : Quant) (net : Network) (us them : Accumulator) :
    (products_fit q us (net.output_weights 0) → products_fit q them (net.output_weights 1) →
      evaluate_defined q net us them → net.evaluate q us them = spec_score q net us them) ∧
    net.evaluate q us them =
      wrap32 (Int.tdiv
        (wrap32 (wrap32 (wrap32 (Int.tdiv
          (running_output
            (((List.finRange HIDDEN_SIZE).map fun i =>
                clamp (us.vals i).val 0 q.QA.val *
                  reduce16 (clamp (us.vals i).val 0 q.QA.val *
                    ((net.output_weights 0).vals i).val)) ++
              ((List.finRange HIDDEN_SIZE).map fun i =>
                clamp (them.vals i).val 0 q.QA.val *
                  reduce16 (clamp (them.vals i).val 0 q.QA.val *
                    ((net.output_weights 1).vals i).val))))
          q.QA.val) + net.output_bias.val) * q.SCALE))
        (wrap32 (q.QA.val * q.QB))) ∧
    ∀ x : Int, inInt16 (reduce16 x) ∧ (reduce16 x - x) % 65536 = 0 ∧
      (inInt16 x → reduce16 x = x) := by
  refine ⟨network_evaluate_eq_spec_score q net us them, ?_, reduce16_spec⟩
  rw [← evaluate_terms_reduce16]
  unfold Network.evaluate
  simp only [evaluate_loops_eq]

/-- C11 (instance): with `QA = 255`, `QB = 64`, `SCALE = 400`, every accumulator element `3` and
every output weight `1`, each product is `3`, nothing overflows, and the result is the formula. -/
theorem network_evaluate_int16_products_witness :
    products_fit sample_quant (Eval.new unit_net).white (unit_net.output_weights 0) ∧
    products_fit sample_quant (Eval.new unit_net).black (unit_net.output_weights 1) ∧
    evaluate_defined sample_quant unit_net (Eval.new unit_net).white (Eval.new unit_net).black ∧
    unit_net.evaluate sample_quant (Eval.new unit_net).white (Eval.new unit_net).black =
      spec_score sample_quant unit_net (Eval.new unit_net).white (Eval.new unit_net).black :=
  ⟨unit_products_fit 0, unit_products_fit 1, unit_evaluate_defined,
    (network_evaluate_int16_products sample_quant unit_net (Eval.new unit_net).white
      (Eval.new unit_net).black).1 (unit_products_fit 0) (unit_products_fit 1)
      unit_evaluate_defined⟩

end Dog
